import Mathlib

/-!
Verification development for the `ilbm` IFF/ILBM image decoder.

The Rust sources (`src/bytes.rs`, `src/compression.rs`, `src/iff.rs`,
`src/read.rs`, `src/lib.rs`) are shallowly embedded below: byte slices
become `List Nat` (each element a byte value), fallible operations return
`Except IlbmError` and operations that can additionally panic (Rust
`panic!` / `assert!` / `unreachable!`) return `RResult`, whose `aborted`
constructor marks an abnormal process abort.  Machine integers are
modelled as `Nat`/`Int`.  Loops whose termination is driven by input
consumption are written with an explicit fuel argument that the top-level
entry points instantiate with more than the input length, so every
definition is a computable structural recursion.
-/

/-- Error type of the library (`Error` in `lib.rs`, re-exported as
`IlbmError` and used throughout `read.rs`).  The `String` payloads of
`invalidHeader`, `invalidData` and `notSupported` carry the formatted
messages the source builds with `format!`. -/
inductive IlbmError where
  | invalidHeader (expected actual : String)
  | invalidData (msg : String)
  | noImage
  | noPlanes
  | noHeader
  | noMapEntry (index map_size : Nat)
  | noData
  | notSupported (msg : String)
deriving DecidableEq, Repr

/-- Result of running a piece of Rust code that can return a value,
return a typed error, or abort the process (`panic!`, failed `assert!`,
`unreachable!`). -/
inductive RResult (α : Type) where
  | ok (val : α)
  | err (e : IlbmError)
  | aborted
deriving DecidableEq, Repr

/-- Inject an ordinary fallible result into `RResult`. -/
def liftE {α : Type} : Except IlbmError α → RResult α
  | .ok a => .ok a
  | .error e => .err e

/-- RGB triple (`RgbValue(u8, u8, u8)` in `lib.rs`); field `r` is the
tuple component `.0`, `g` is `.1`, `b` is `.2`. -/
structure RgbValue where
  r : Nat
  g : Nat
  b : Nat
deriving DecidableEq, Repr

/-- Color map: an ordered list of RGB triples (`ColorMap` in `lib.rs`). -/
structure ColorMap where
  colors : List RgbValue
deriving DecidableEq, Repr

/-- Two-dimensional size (`Size2D(usize, usize)` with accessors
`width()` = `.0`, `height()` = `.1`). -/
structure Size2D where
  width : Nat
  height : Nat
deriving DecidableEq, Repr

/-- Masking mode enumeration from `lib.rs`. -/
inductive Masking where
  | noMask
  | hasMask
  | hasTransparentColor
  | lasso
deriving DecidableEq, Repr

/-- The function `as_masking` from `lib.rs`: unknown values are coerced
to `NoMask` (after an error log, which has no semantic effect). -/
def as_masking (v : Nat) : Masking :=
  if v = 0 then .noMask
  else if v = 1 then .hasMask
  else if v = 2 then .hasTransparentColor
  else if v = 3 then .lasso
  else .noMask

/-- Display mode flag word (`DisplayMode(u32)` in `lib.rs`). -/
structure DisplayMode where
  mode : Nat
deriving DecidableEq, Repr

/-- Bit 0x800 selects HAM (chroma-modify) decoding. -/
def DisplayMode.is_ham (d : DisplayMode) : Bool := d.mode &&& 2048 != 0

/-- Bit 0x80 selects HalfBrite (half-intensity) decoding. -/
def DisplayMode.is_halfbrite (d : DisplayMode) : Bool := d.mode &&& 128 != 0

/-- Modelled from the spec: the constructor `DisplayMode::ham()` used by
`read.rs` is not among the provided sources; the spec states that bit
0x800 of the flag word selects chroma-modify decoding, so the forced
mode is the flag word with exactly that bit set. -/
def DisplayMode.ham : DisplayMode := ⟨2048⟩

/-- Modelled from the spec: the `ReadOptions` struct consumed by
`read_file` is not among the provided sources; per the spec the options
are `read_pixels` (if false, metadata only) and `page_scale` (apply the
page-size display-correction heuristic).  The field names match the uses
`options.read_pixels` and `options.page_scale` in `read.rs`. -/
structure ReadOptions where
  read_pixels : Bool
  page_scale : Bool
deriving DecidableEq, Repr

/-- Decoded image (`IlbmImage` in `lib.rs`); chunk ids are 4-byte lists. -/
structure IlbmImage where
  form_type : List Nat
  size : Size2D
  map_size : Nat
  chunk_types : List (List Nat)
  planes : Nat
  masking : Masking
  compression : Bool
  display_mode : DisplayMode
  dpi : Size2D
  pixel_aspect : Size2D
  transparent_color : Nat
  page_size : Size2D
  pixels : List Nat
deriving DecidableEq, Repr

/-- The `Default` instance for `IlbmImage`: the default `ChunkId` is
`[63; 4]` (four `?` bytes), everything else is zero or empty. -/
def default_image : IlbmImage :=
  ⟨[63, 63, 63, 63], ⟨0, 0⟩, 0, [], 0, .noMask, false, ⟨0⟩, ⟨0, 0⟩, ⟨0, 0⟩, 0, ⟨0, 0⟩, []⟩

/-- Big-endian interpretation of a byte list (`uNN::from_be_bytes`). -/
def fromBE (l : List Nat) : Nat := l.foldl (fun acc b => acc * 256 + b) 0

/-- Two's-complement reading of a `w`-bit big-endian value
(`iNN::from_be_bytes`). -/
def toSigned (w : Nat) (n : Nat) : Int :=
  if n < 2 ^ (w - 1) then (n : Int) else (n : Int) - 2 ^ w

/-- The cursor `get_u8` of `bytes.rs`: the first component is the read
result, the second the state of the slice after the call (advanced on
success, untouched on failure, matching the `&mut self` discipline of
the source). -/
def get_u8 (s : List Nat) : Except IlbmError Nat × List Nat :=
  if s.length < 1 then (.error .noData, s)
  else (.ok (fromBE (s.take 1)), s.drop 1)

/-- The cursor `get_i8` of `bytes.rs`. -/
def get_i8 (s : List Nat) : Except IlbmError Int × List Nat :=
  if s.length < 1 then (.error .noData, s)
  else (.ok (toSigned 8 (fromBE (s.take 1))), s.drop 1)

/-- The cursor `get_u16` of `bytes.rs`. -/
def get_u16 (s : List Nat) : Except IlbmError Nat × List Nat :=
  if s.length < 2 then (.error .noData, s)
  else (.ok (fromBE (s.take 2)), s.drop 2)

/-- The cursor `get_i16` of `bytes.rs`. -/
def get_i16 (s : List Nat) : Except IlbmError Int × List Nat :=
  if s.length < 2 then (.error .noData, s)
  else (.ok (toSigned 16 (fromBE (s.take 2))), s.drop 2)

/-- The cursor `get_u32` of `bytes.rs`. -/
def get_u32 (s : List Nat) : Except IlbmError Nat × List Nat :=
  if s.length < 4 then (.error .noData, s)
  else (.ok (fromBE (s.take 4)), s.drop 4)

/-- `get_u8` packaged for monadic plumbing (`buf.get_u8()?`). -/
def get_u8E (s : List Nat) : Except IlbmError (Nat × List Nat) :=
  match get_u8 s with
  | (.ok v, s') => .ok (v, s')
  | (.error e, _) => .error e

/-- `get_u16` packaged for monadic plumbing. -/
def get_u16E (s : List Nat) : Except IlbmError (Nat × List Nat) :=
  match get_u16 s with
  | (.ok v, s') => .ok (v, s')
  | (.error e, _) => .error e

/-- `get_i16` packaged for monadic plumbing. -/
def get_i16E (s : List Nat) : Except IlbmError (Int × List Nat) :=
  match get_i16 s with
  | (.ok v, s') => .ok (v, s')
  | (.error e, _) => .error e

/-- `get_u32` packaged for monadic plumbing. -/
def get_u32E (s : List Nat) : Except IlbmError (Nat × List Nat) :=
  match get_u32 s with
  | (.ok v, s') => .ok (v, s')
  | (.error e, _) => .error e

/-- The exact message `compression.rs` formats when decompression
produced more bytes than requested. -/
def unpack_overshoot_msg (expected got : Nat) : String :=
  "decompression unpacked too many bytes, expected " ++ toString expected ++
    " but got " ++ toString got

/-- Reading `k` consecutive bytes with `get_u8` (the net effect of the
literal-copy inner loop of `unpacker`): the bytes read and the rest, or
`NoData` when fewer than `k` bytes remain. -/
def takeExact (k : Nat) (l : List Nat) : Except IlbmError (List Nat × List Nat) :=
  if l.length < k then .error .noData else .ok (l.take k, l.drop k)

/-- The `while` loop of `unpacker` in `compression.rs`.  A control byte
`n` read with `get_i8` is non-negative exactly when the raw byte is at
most 127, equals -128 exactly when the raw byte is 128, and otherwise
its negation satisfies `-n + 1 = 257 - byte`.  The loop consumes at
least one input byte per iteration, so fuel exceeding the input length
(supplied by `unpacker`) is never exhausted; the fuel-0 branch mirrors
the empty-input `NoData` failure. -/
def unpackerLoop (target : Nat) : Nat → List Nat → List Nat →
    Except IlbmError (List Nat × List Nat)
  | 0, data, acc =>
    if target ≤ acc.length then
      if acc.length = target then .ok (data, acc)
      else .error (.invalidData (unpack_overshoot_msg target acc.length))
    else .error .noData
  | fuel + 1, data, acc =>
    if target ≤ acc.length then
      if acc.length = target then .ok (data, acc)
      else .error (.invalidData (unpack_overshoot_msg target acc.length))
    else
      match data with
      | [] => .error .noData
      | n :: rest =>
        if n ≤ 127 then
          match takeExact (n + 1) rest with
          | .error e => .error e
          | .ok (bs, rest') => unpackerLoop target fuel rest' (acc ++ bs)
        else if n = 128 then
          unpackerLoop target fuel rest acc
        else
          match rest with
          | [] => .error .noData
          | b :: rest' => unpackerLoop target fuel rest' (acc ++ List.replicate (257 - n) b)

/-- `unpacker` from `compression.rs`: expand a PackBits-style stream to
exactly `byte_width` bytes, returning the unconsumed input and the
output. -/
def unpacker (input : List Nat) (byte_width : Nat) :
    Except IlbmError (List Nat × List Nat) :=
  unpackerLoop byte_width (input.length + 1) input []

/-- A chunk produced by the IFF reader (`IffChunk` in `iff.rs`): a
4-byte tag and the payload. -/
structure IffChunk where
  ck_id : List Nat
  data : List Nat
deriving DecidableEq, Repr

/-- `IffChunk::is_form`: the tag is `b"FORM"`. -/
def IffChunk.is_form (c : IffChunk) : Bool := c.ck_id == [70, 79, 82, 77]

/-- `IffChunk::form_type`: the first 4 payload bytes when the chunk is a
container with payload length at least 4; `none` models the `panic!`
taken otherwise. -/
def IffChunk.form_type (c : IffChunk) : Option (List Nat) :=
  if c.is_form ∧ 4 ≤ c.data.length then some (c.data.take 4) else none

/-- `read_exact` over a byte list: `k` bytes and the rest, or failure. -/
def readExact (k : Nat) (s : List Nat) : Option (List Nat × List Nat) :=
  if s.length < k then none else some (s.take k, s.drop k)

/-- The body of `<IffReader as Iterator>::next` after any padding byte
has been handled: tag, big-endian length, payload; any short read ends
the iteration. -/
def iffNextCore (s : List Nat) : Option (IffChunk × Bool × List Nat) :=
  match readExact 4 s with
  | none => none
  | some (id, s1) =>
    match readExact 4 s1 with
    | none => none
    | some (lenb, s2) =>
      let len := fromBE lenb
      let skip := len &&& 1 != 0
      match readExact len s2 with
      | none => none
      | some (data, s3) => some (⟨id, data⟩, skip, s3)

/-- `<IffReader as Iterator>::next`: when the previous chunk had odd
length (`skip`), one padding byte is consumed first. -/
def iffNext (skip : Bool) (s : List Nat) : Option (IffChunk × Bool × List Nat) :=
  if skip then
    match s with
    | [] => none
    | _ :: s' => iffNextCore s'
  else iffNextCore s

/-- Collecting the whole chunk iteration.  Every successful `iffNext`
consumes at least 8 bytes, so fuel exceeding the stream length is never
exhausted. -/
def iffChunksF : Nat → Bool → List Nat → List IffChunk
  | 0, _, _ => []
  | fuel + 1, skip, s =>
    match iffNext skip s with
    | none => []
    | some (c, sk, s') => c :: iffChunksF fuel sk s'

/-- All chunks of a stream, as yielded by iterating `IffReader::new`. -/
def iffChunks (s : List Nat) : List IffChunk := iffChunksF (s.length + 1) false s

/-- `IffChunk::sub_chunks`: a fresh reader over the payload after the
4-byte form sub-type tag. -/
def IffChunk.sub_chunks (c : IffChunk) : List IffChunk := iffChunks (c.data.drop 4)

/-- Big-endian 4-byte encoding of a length (`u32::to_be_bytes`), used to
describe well-formed chunk streams. -/
def be32 (n : Nat) : List Nat :=
  [n / 2 ^ 24 % 256, n / 2 ^ 16 % 256, n / 2 ^ 8 % 256, n % 256]

/-- Wire encoding of one chunk: tag, big-endian length, payload, and one
padding byte when the payload length is odd (IFF word alignment). -/
def encodeChunk (c : IffChunk) : List Nat :=
  c.ck_id ++ be32 c.data.length ++ c.data ++
    (if c.data.length % 2 = 1 then [0] else [])

/-- Wire encoding of a chunk sequence. -/
def encodeChunks (cs : List IffChunk) : List Nat :=
  cs.foldr (fun c acc => encodeChunk c ++ acc) []

/-- One step of the row iterator (`RowIter::next` in `read.rs`): when
compressed, one decompressed row of `width` bytes (any `unpacker`
failure becomes `None`, i.e. end of iteration); when uncompressed, a
direct `width`-byte slice.  Returns the row and the remaining input. -/
def rowIterNext (raw : List Nat) (width : Nat) (compressed : Bool) :
    Option (List Nat × List Nat) :=
  if compressed then
    match unpacker raw width with
    | .ok (remaining, row) => some (row, remaining)
    | .error _ => none
  else
    if raw.length < width then none
    else some (raw.take width, raw.drop width)

/-- The inner bit loop of plane assembly in `read_body_with_cmap`: for
each bit position `b` of `byte` (most significant first, matching the
`plane_byte & 0x80` test with `plane_byte <<= 1`), set `plane_bit` in
the row entry at `offset * 8 + b` when that index is below `width`. -/
def applyPlaneByte (width plane_bit offset byte : Nat) (row : List Nat) : List Nat :=
  (List.range 8).foldl
    (fun r b =>
      if (byte <<< b) &&& 128 ≠ 0 then
        if offset * 8 + b < width then
          r.set (offset * 8 + b) ((r.getD (offset * 8 + b) 0) ||| plane_bit)
        else r
      else r)
    row

/-- One plane's contribution to an accumulator row: every byte of the
plane row is processed at its offset. -/
def applyPlane (width plane_bit : Nat) (plane_data row : List Nat) : List Nat :=
  plane_data.enum.foldl (fun r ob => applyPlaneByte width plane_bit ob.1 ob.2 r) row

/-- The per-row plane loop of `read_body_with_cmap` / `read_body_no_map`:
read `planes` rows from the row iterator (missing row: `NoData`), OR-ing
each into the accumulator with the current `plane_bit`, which starts at
1 and shifts left after each plane. -/
def read_planes (width row_stride : Nat) (compressed : Bool) :
    Nat → Nat → List Nat → List Nat → Except IlbmError (List Nat × List Nat)
  | 0, _, row, raw => .ok (row, raw)
  | n + 1, plane_bit, row, raw =>
    match rowIterNext raw row_stride compressed with
    | none => .error .noData
    | some (plane_data, raw') =>
      read_planes width row_stride compressed n (plane_bit <<< 1)
        (applyPlane width plane_bit plane_data row) raw'

/-- The mask handling of the body readers: when masking is `HasMask`,
one further plane row is read and discarded (missing row: `NoData`). -/
def read_mask_row (masking : Masking) (raw : List Nat) (row_stride : Nat)
    (compressed : Bool) : Except IlbmError (List Nat) :=
  if masking = Masking.hasMask then
    match rowIterNext raw row_stride compressed with
    | none => .error .noData
    | some (_, raw') => .ok raw'
  else .ok raw

/-- `push_row_bytes` of `read.rs`: plain color-map indexing.  The bytes
this call appends to the pixel vector are returned (the caller discards
them on error, so the net effect at the call boundary is identical to
the source's in-place pushes). -/
def push_row_bytes : List Nat → ColorMap → Except IlbmError (List Nat)
  | [], _ => .ok []
  | p :: rest, cmap =>
    let map_size := cmap.colors.length
    if p ≥ map_size then .error (.noMapEntry p map_size)
    else
      let rgb := cmap.colors.getD p ⟨0, 0, 0⟩
      match push_row_bytes rest cmap with
      | .ok tail => .ok (rgb.r :: rgb.g :: rgb.b :: tail)
      | .error e => .error e

/-- The component scaling of the HAM modify cases: shift the low bits up
to fill 8 bits, then OR the shifted-out portion back in from the top
(`component |= component >> (8 - mod_color_shift)`). -/
def hamComponent (low_bits mod_color_shift : Nat) : Nat :=
  let c := low_bits <<< mod_color_shift
  c ||| (c >>> (8 - mod_color_shift))

/-- The pixel loop of `push_row_bytes_ham` in `read.rs`.  The branch
order 0, 2, 1, 3 matches the source `match`; any other value of
`mod_bits` is the source's `unreachable!`, modelled as `aborted`. -/
def push_row_bytes_ham_loop (map_size mod_shift index_mask mod_color_shift : Nat)
    (cmap : ColorMap) : List Nat → RgbValue → RResult (List Nat)
  | [], _ => .ok []
  | p :: rest, color =>
    let mod_bits := p >>> mod_shift
    let low_bits := p &&& index_mask
    let next : RResult RgbValue :=
      if mod_bits = 0 then
        if low_bits ≥ map_size then .err (.noMapEntry low_bits map_size)
        else .ok (cmap.colors.getD low_bits ⟨0, 0, 0⟩)
      else if mod_bits = 2 then .ok { color with r := hamComponent low_bits mod_color_shift }
      else if mod_bits = 1 then .ok { color with b := hamComponent low_bits mod_color_shift }
      else if mod_bits = 3 then .ok { color with g := hamComponent low_bits mod_color_shift }
      else .aborted
    match next with
    | .ok c =>
      match push_row_bytes_ham_loop map_size mod_shift index_mask mod_color_shift cmap rest c with
      | .ok tail => .ok (c.r :: c.g :: c.b :: tail)
      | other => other
    | .err e => .err e
    | .aborted => .aborted

/-- `push_row_bytes_ham` of `read.rs`: HAM resolution of one assembled
row.  The running color starts as map entry 0 (the border color); an
empty map fails up front with `NoMapEntry`. -/
def push_row_bytes_ham (row : List Nat) (planes : Nat) (cmap : ColorMap) :
    RResult (List Nat) :=
  let map_size := cmap.colors.length
  let mod_shift := planes - 2
  let index_mask := (1 <<< mod_shift) - 1
  let mod_color_shift := 8 - mod_shift
  if map_size = 0 then .err (.noMapEntry 0 map_size)
  else push_row_bytes_ham_loop map_size mod_shift index_mask mod_color_shift cmap row
    (cmap.colors.getD 0 ⟨0, 0, 0⟩)

/-- `push_row_bytes_halfbrite` of `read.rs`: the low 5 bits index the
map, bit 0x20 halves each channel by a right shift. -/
def push_row_bytes_halfbrite : List Nat → ColorMap → Except IlbmError (List Nat)
  | [], _ => .ok []
  | p :: rest, cmap =>
    let index := p &&& 31
    let map_size := cmap.colors.length
    if index ≥ map_size then .error (.noMapEntry index map_size)
    else
      let rgb := cmap.colors.getD index ⟨0, 0, 0⟩
      let triple :=
        if p &&& 32 ≠ 0 then [rgb.r >>> 1, rgb.g >>> 1, rgb.b >>> 1]
        else [rgb.r, rgb.g, rgb.b]
      match push_row_bytes_halfbrite rest cmap with
      | .ok tail => .ok (triple ++ tail)
      | .error e => .error e

/-- `push_row_bytes_halfbrite` of `lib.rs` (the second, older copy of the
half-intensity resolver in the repository): the index is `p >> 1` and
the halving flag is the LOW bit of `p`. -/
def push_row_bytes_halfbrite_lib : List Nat → ColorMap → Except IlbmError (List Nat)
  | [], _ => .ok []
  | p :: rest, cmap =>
    let index := p >>> 1
    let map_size := cmap.colors.length
    if index ≥ map_size then .error (.noMapEntry index map_size)
    else
      let rgb := cmap.colors.getD index ⟨0, 0, 0⟩
      let triple :=
        if p &&& 1 ≠ 0 then [rgb.r >>> 1, rgb.g >>> 1, rgb.b >>> 1]
        else [rgb.r, rgb.g, rgb.b]
      match push_row_bytes_halfbrite_lib rest cmap with
      | .ok tail => .ok (triple ++ tail)
      | .error e => .error e

/-- The per-image row loop of `read_body_with_cmap`: assemble each of
`height` rows from the planes (plus discarded mask row), resolve it with
the policy selected by `mode` (HAM first, then HalfBrite, else direct),
and append the resolved bytes. -/
def body_loop_cmap (row_stride width planes : Nat) (compressed : Bool)
    (masking : Masking) (mode : DisplayMode) (cmap : ColorMap) :
    Nat → List Nat → List Nat → RResult (List Nat)
  | 0, _, pixels => .ok pixels
  | h + 1, raw, pixels =>
    match read_planes width row_stride compressed planes 1 (List.replicate width 0) raw with
    | .error e => .err e
    | .ok (row, raw1) =>
      match read_mask_row masking raw1 row_stride compressed with
      | .error e => .err e
      | .ok raw2 =>
        let resolved : RResult (List Nat) :=
          if mode.is_ham then push_row_bytes_ham row planes cmap
          else if mode.is_halfbrite then liftE (push_row_bytes_halfbrite row cmap)
          else liftE (push_row_bytes row cmap)
        match resolved with
        | .ok bytes => body_loop_cmap row_stride width planes compressed masking mode cmap h raw2 (pixels ++ bytes)
        | .err e => .err e
        | .aborted => .aborted

/-- `read_body_with_cmap` of `read.rs`: color-mapped body reading.  More
than 8 planes is `NotSupported`; the final `assert_eq!` on the pixel
count is modelled as `aborted` when violated. -/
def read_body_with_cmap (data : List Nat) (mode : DisplayMode) (cmap : ColorMap)
    (image : IlbmImage) : RResult IlbmImage :=
  if image.planes > 8 then .err (.notSupported ("Color map with more than 8 planes"))
  else
    let width := image.size.width
    let height := image.size.height
    let row_stride := (width + 15) / 16 * 2
    match body_loop_cmap row_stride width image.planes image.compression image.masking mode cmap height data [] with
    | .ok pixels =>
      if pixels.length = 3 * width * height then .ok { image with pixels := pixels }
      else .aborted
    | .err e => .err e
    | .aborted => .aborted

/-- Resolution without a color map in `read_body_no_map`: each assembled
32-bit value contributes its three low big-endian bytes (`rgb[3]`,
`rgb[2]`, `rgb[1]` of `to_be_bytes`), the top byte being presumed
alpha. -/
def resolve_no_map (row : List Nat) : List Nat :=
  row.foldr (fun p acc => (p &&& 255) :: ((p >>> 8) &&& 255) :: ((p >>> 16) &&& 255) :: acc) []

/-- The per-image row loop of `read_body_no_map`. -/
def body_loop_no_map (row_stride width planes : Nat) (compressed : Bool)
    (masking : Masking) : Nat → List Nat → List Nat → Except IlbmError (List Nat)
  | 0, _, pixels => .ok pixels
  | h + 1, raw, pixels =>
    match read_planes width row_stride compressed planes 1 (List.replicate width 0) raw with
    | .error e => .error e
    | .ok (row, raw1) =>
      match read_mask_row masking raw1 row_stride compressed with
      | .error e => .error e
      | .ok raw2 => body_loop_no_map row_stride width planes compressed masking h raw2 (pixels ++ resolve_no_map row)

/-- `read_body_no_map` of `read.rs`: deep-color body reading, capped at
32 planes. -/
def read_body_no_map (data : List Nat) (image : IlbmImage) : RResult IlbmImage :=
  if image.planes > 32 then .err (.notSupported ("Too many plans for deep color!"))
  else
    let width := image.size.width
    let height := image.size.height
    let row_stride := (width + 15) / 16 * 2
    match body_loop_no_map row_stride width image.planes image.compression image.masking height data [] with
    | .error e => .err e
    | .ok pixels =>
      if pixels.length = 3 * width * height then .ok { image with pixels := pixels }
      else .aborted

/-- `read_body` of `read.rs`: dispatch on color-map presence. -/
def read_body (data : List Nat) (mode : DisplayMode) (map : Option ColorMap)
    (image : IlbmImage) : RResult IlbmImage :=
  match map with
  | some m => read_body_with_cmap data mode m image
  | none => read_body_no_map data image

/-- The entry loop of `read_color_map`: read `count` RGB triples with
`get_u8`, tracking whether any channel has a nonzero low nibble. -/
def read_color_map_loop : Nat → List Nat → List RgbValue → Bool →
    Except IlbmError (List RgbValue × Bool)
  | 0, _, colors, found => .ok (colors, found)
  | n + 1, buf, colors, found =>
    match get_u8 buf with
    | (.error e, _) => .error e
    | (.ok red, buf1) =>
      match get_u8 buf1 with
      | (.error e, _) => .error e
      | (.ok green, buf2) =>
        match get_u8 buf2 with
        | (.error e, _) => .error e
        | (.ok blue, buf3) =>
          let found := found || (((red &&& 15) ||| ((green &&& 15) ||| (blue &&& 15))) != 0)
          read_color_map_loop n buf3 (colors ++ [⟨red, green, blue⟩]) found

/-- The legacy widening applied to one entry when no low nibble was
found anywhere: each channel `c` becomes `c | (c >> 4)`. -/
def fix_color (c : RgbValue) : RgbValue :=
  ⟨c.r ||| (c.r >>> 4), c.g ||| (c.g >>> 4), c.b ||| (c.b >>> 4)⟩

/-- `read_color_map` of `read.rs`: `len / 3` triples are read; when no
channel anywhere has a nonzero low nibble, every entry is widened once. -/
def read_color_map (data : List Nat) : Except IlbmError ColorMap :=
  match read_color_map_loop (data.length / 3) data [] false with
  | .error e => .error e
  | .ok (colors, found_low_bits) =>
    .ok ⟨if found_low_bits then colors else colors.map fix_color⟩

/-- `read_display_mode` of `read.rs`. -/
def read_display_mode (data : List Nat) : Except IlbmError DisplayMode :=
  match get_u32E data with
  | .error e => .error e
  | .ok (v, _) => .ok ⟨v⟩

/-- `read_dpi` of `read.rs`.  Both calls are `chunk.data().get_u16()?`
on a fresh temporary slice, so both components read the same leading
two bytes of the chunk. -/
def read_dpi (data : List Nat) : Except IlbmError Size2D :=
  match get_u16E data with
  | .error e => .error e
  | .ok (a, _) =>
    match get_u16E data with
    | .error e => .error e
    | .ok (b, _) => .ok ⟨a, b⟩

/-- Rust's `i16 as usize` on a 64-bit target: negative values wrap. -/
def i16_as_usize (v : Int) : Nat :=
  if 0 ≤ v then v.toNat else (v + 2 ^ 64).toNat

/-- The formatted `Display` of a `Size2D`, used in the invalid-header
message. -/
def size_display (s : Size2D) : String :=
  toString s.width ++ "x" ++ toString s.height

/-- The field reads and validations of `read_bitmap_header` (after its
leading `assert!`): 20 bytes of fixed header layout, then the zero-size
and zero-planes checks. -/
def read_bitmap_header_fields (data : List Nat) (image : IlbmImage) :
    Except IlbmError IlbmImage := do
  let (w, buf) ← get_u16E data
  let (h, buf) ← get_u16E buf
  let (_x, buf) ← get_i16E buf
  let (_y, buf) ← get_i16E buf
  let (planes, buf) ← get_u8E buf
  let (masking, buf) ← get_u8E buf
  let (compression, buf) ← get_u8E buf
  let (_pad, buf) ← get_u8E buf
  let (transparent, buf) ← get_u16E buf
  let (xa, buf) ← get_u8E buf
  let (ya, buf) ← get_u8E buf
  let (pw, buf) ← get_i16E buf
  let (ph, _) ← get_i16E buf
  let image := { image with
    size := ⟨w, h⟩, planes := planes, masking := as_masking masking,
    compression := compression != 0, transparent_color := transparent,
    pixel_aspect := ⟨xa, ya⟩, page_size := ⟨i16_as_usize pw, i16_as_usize ph⟩ }
  if image.size.width = 0 ∨ image.size.height = 0 then
    throw (.invalidHeader ("non-zero height and width") (size_display image.size))
  else if image.planes = 0 then
    throw .noPlanes
  else
    pure image

/-- `read_bitmap_header` of `read.rs`: the function opens with
`assert!(buf.len() >= 20)`, which aborts the process on a shorter
payload; this is modelled as `aborted`. -/
def read_bitmap_header (data : List Nat) (image : IlbmImage) : RResult IlbmImage :=
  if data.length < 20 then .aborted
  else
    match read_bitmap_header_fields data image with
    | .ok i => .ok i
    | .error e => .err e

/-- The message formatted for the halfbrite plane-count check in
`read_file`. -/
def halfbrite_msg (planes : Nat) : String :=
  "Halfbright only works with 6 planes, but I have " ++ toString planes

/-- The state accumulated by the sub-chunk loop of `read_file`. -/
structure SubState where
  image : IlbmImage
  map : Option ColorMap
  got_header : Bool
  got_camg : Bool
deriving DecidableEq, Repr

/-- Doubling every pixel horizontally in the page-scale post-process; the
source indexes `old[i + 1]` and `old[i + 2]` for every `i` in steps of
3, which panics (modelled `none`) if the buffer length is not a multiple
of 3. -/
def doubleTriples : List Nat → Option (List Nat)
  | [] => some []
  | a :: b :: c :: rest => (doubleTriples rest).map (fun t => a :: b :: c :: a :: b :: c :: t)
  | _ => none

/-- The `BODY` arm of `read_file`: require a header, apply the HAM6
heuristic (no CAMG, 6 planes, 16 map entries forces the HAM mode), check
the halfbrite plane-count restriction, read pixels when requested, and
apply the optional page-scale doubling. -/
def process_body (data : List Nat) (st : SubState) (options : ReadOptions) :
    RResult IlbmImage :=
  if ¬ st.got_header then .err .noHeader
  else
    let image :=
      if ¬ st.got_camg ∧ st.image.planes = 6 ∧ st.image.map_size = 16 then
        { st.image with display_mode := DisplayMode.ham }
      else st.image
    if image.display_mode.is_halfbrite ∧ image.planes ≠ 6 then
      .err (.notSupported (halfbrite_msg image.planes))
    else
      let r := if options.read_pixels then read_body data image.display_mode st.map image else .ok image
      match r with
      | .ok image =>
        if options.page_scale ∧ image.page_size.width < image.page_size.height then
          match doubleTriples image.pixels with
          | some px => .ok { image with pixels := px, size := ⟨image.size.width * 2, image.size.height⟩ }
          | none => .aborted
        else .ok image
      | other => other

/-- The sub-chunk loop of `read_file`: each sub-chunk's tag is recorded,
then dispatched; `BMHD`, `CMAP`, `CAMG`, `DPI ` update the state, `BODY`
terminates the decode, anything else is skipped.  `.ok none` means the
loop ran out of sub-chunks without a `BODY`. -/
def process_sub (options : ReadOptions) : List IffChunk → SubState →
    RResult (Option IlbmImage)
  | [], _ => .ok none
  | c :: rest, st0 =>
    let st := { st0 with image := { st0.image with chunk_types := st0.image.chunk_types ++ [c.ck_id] } }
    if c.ck_id = [66, 77, 72, 68] then
      match read_bitmap_header c.data st.image with
      | .ok image => process_sub options rest { st with image := image, got_header := true }
      | .err e => .err e
      | .aborted => .aborted
    else if c.ck_id = [67, 77, 65, 80] then
      match read_color_map c.data with
      | .error e => .err e
      | .ok m => process_sub options rest { st with image := { st.image with map_size := m.colors.length }, map := some m }
    else if c.ck_id = [67, 65, 77, 71] then
      match read_display_mode c.data with
      | .error e => .err e
      | .ok mode => process_sub options rest { st with image := { st.image with display_mode := mode }, got_camg := true }
    else if c.ck_id = [68, 80, 73, 32] then
      match read_dpi c.data with
      | .error e => .err e
      | .ok dpi => process_sub options rest { st with image := { st.image with dpi := dpi } }
    else if c.ck_id = [66, 79, 68, 89] then
      match process_body c.data st options with
      | .ok image => .ok (some image)
      | .err e => .err e
      | .aborted => .aborted
    else process_sub options rest st

/-- The top-level chunk loop of `read_file`: only `FORM` chunks are
examined.  `form_type()` is invoked on every `FORM` chunk guarded only
by `is_form()`, so a `FORM` whose payload is shorter than 4 bytes hits
the source's `panic!` (`aborted`).  A form of type `ILBM` is decoded via
the sub-chunk loop; when that loop finds no `BODY` the search
continues. -/
def process_top (options : ReadOptions) : List IffChunk → RResult IlbmImage
  | [] => .err .noImage
  | c :: rest =>
    if c.is_form then
      match c.form_type with
      | none => .aborted
      | some ft =>
        if ft = [73, 76, 66, 77] then
          match process_sub options c.sub_chunks
              { image := { default_image with form_type := ft }, map := none,
                got_header := false, got_camg := false } with
          | .ok (some image) => .ok image
          | .ok none => process_top options rest
          | .err e => .err e
          | .aborted => .aborted
        else process_top options rest
    else process_top options rest

/-- `read_file` of `read.rs`, with the file contents already read into
memory (the source buffers the whole file up front): iterate the chunk
reader and process the first decodable `ILBM` form; `NoImage` when the
stream holds none. -/
def read_file (all_bytes : List Nat) (options : ReadOptions) : RResult IlbmImage :=
  process_top options (iffChunks all_bytes)

/-! ## Specification-side definitions and helper lemmas -/

/-- Bit mask by 1 is parity. -/
theorem nat_and_one (p : Nat) : p &&& 1 = p % 2 := Nat.and_one_is_mod p

/-- Bit mask by 31 takes the low 5 bits. -/
theorem nat_and_31 (p : Nat) : p &&& 31 = p % 32 := by
  have h := Nat.and_pow_two_sub_one_eq_mod p 5
  simpa using h

/-- Testing bit 5 via the 0x20 mask. -/
theorem nat_and_32_ne (p : Nat) : (p &&& 32 ≠ 0) ↔ p / 32 % 2 = 1 := by
  have h32 : (32 : Nat) = 2 ^ 5 := by norm_num
  rw [h32, Nat.and_two_pow]
  have ht : p.testBit 5 = decide (p / 2 ^ 5 % 2 = 1) := Nat.testBit_to_div_mod
  cases h : p.testBit 5 <;> rw [h] at ht <;> simp at ht <;> simp [ht]

/-- A bitwise OR is zero exactly when both arguments are. -/
theorem nat_or_eq_zero (a b : Nat) : a ||| b = 0 ↔ a = 0 ∧ b = 0 := by
  constructor
  · intro h
    constructor
    · apply Nat.eq_of_testBit_eq
      intro i
      have hc := congrArg (fun n => n.testBit i) h
      simp [Nat.testBit_or] at hc
      simp [hc.1]
    · apply Nat.eq_of_testBit_eq
      intro i
      have hc := congrArg (fun n => n.testBit i) h
      simp [Nat.testBit_or] at hc
      simp [hc.2]
  · rintro ⟨rfl, rfl⟩
    rfl

/-- A list lookup with default coincides with the checked lookup inside
the bounds. -/
theorem getD_eq_get {α : Type} (l : List α) (i : Nat) (d : α) (h : i < l.length) :
    l.getD i d = l.get ⟨i, h⟩ := by
  rw [List.getD_eq_getElem?_getD, List.getElem?_eq_getElem h]
  rfl

/-- Reading one byte from a nonempty slice. -/
theorem get_u8_cons (b : Nat) (rest : List Nat) : get_u8 (b :: rest) = (.ok b, rest) := by
  simp [get_u8, fromBE]

/-- Big-endian value of one byte. -/
theorem fromBE_one (b0 : Nat) : fromBE [b0] = b0 := by
  simp [fromBE]

/-- Big-endian value of two bytes. -/
theorem fromBE_two (b0 b1 : Nat) : fromBE [b0, b1] = 256 * b0 + b1 := by
  simp [fromBE]
  ring

/-- Big-endian value of four bytes. -/
theorem fromBE_four (b0 b1 b2 b3 : Nat) :
    fromBE [b0, b1, b2, b3] = ((256 * b0 + b1) * 256 + b2) * 256 + b3 := by
  simp [fromBE]
  ring

/-- C10: Byte-cursor error atomicity.  Each of `get_u8`, `get_i8`,
`get_u16`, `get_i16`, `get_u32` returns the `NoData` error and leaves
the slice completely unchanged when the slice is shorter than the
requested width, and on success advances the slice by exactly that
width, returning the big-endian (two's-complement for the signed
getters) interpretation of the consumed bytes. -/
theorem byte_cursor_atomicity (s : List Nat) (b0 b1 b2 b3 : Nat) (rest : List Nat) :
    (get_u8 (b0 :: rest) = (.ok b0, rest)) ∧
    (s.length < 1 → get_u8 s = (.error .noData, s)) ∧
    (get_i8 (b0 :: rest) =
      (.ok (if b0 < 128 then (b0 : Int) else (b0 : Int) - 256), rest)) ∧
    (s.length < 1 → get_i8 s = (.error .noData, s)) ∧
    (get_u16 (b0 :: b1 :: rest) = (.ok (256 * b0 + b1), rest)) ∧
    (s.length < 2 → get_u16 s = (.error .noData, s)) ∧
    (get_i16 (b0 :: b1 :: rest) =
      (.ok (if 256 * b0 + b1 < 32768 then ((256 * b0 + b1 : Nat) : Int)
            else ((256 * b0 + b1 : Nat) : Int) - 65536), rest)) ∧
    (s.length < 2 → get_i16 s = (.error .noData, s)) ∧
    (get_u32 (b0 :: b1 :: b2 :: b3 :: rest) =
      (.ok (((256 * b0 + b1) * 256 + b2) * 256 + b3), rest)) ∧
    (s.length < 4 → get_u32 s = (.error .noData, s)) := by
  refine ⟨?_, ?_, ?_, ?_, ?_, ?_, ?_, ?_, ?_, ?_⟩
  · unfold get_u8
    rw [if_neg (by simp only [List.length_cons]; omega)]
    rw [show (b0 :: rest).take 1 = [b0] from rfl, fromBE_one]
    rfl
  · intro h; simp [get_u8, h]
  · unfold get_i8
    rw [if_neg (by simp only [List.length_cons]; omega)]
    rw [show (b0 :: rest).take 1 = [b0] from rfl, fromBE_one]
    unfold toSigned
    norm_num
  · intro h; simp [get_i8, h]
  · unfold get_u16
    rw [if_neg (by simp only [List.length_cons]; omega)]
    rw [show (b0 :: b1 :: rest).take 2 = [b0, b1] from rfl, fromBE_two]
    rfl
  · intro h; simp [get_u16, h]
  · unfold get_i16
    rw [if_neg (by simp only [List.length_cons]; omega)]
    rw [show (b0 :: b1 :: rest).take 2 = [b0, b1] from rfl, fromBE_two]
    unfold toSigned
    norm_num
  · intro h; simp [get_i16, h]
  · unfold get_u32
    rw [if_neg (by simp only [List.length_cons]; omega)]
    rw [show (b0 :: b1 :: b2 :: b3 :: rest).take 4 = [b0, b1, b2, b3] from rfl, fromBE_four]
    rfl
  · intro h; simp [get_u32, h]

/-- Witness for the byte-cursor theorem at concrete inputs: a successful
one-byte read and a failing four-byte read on a two-byte slice. -/
theorem byte_cursor_atomicity_witness :
    get_u8 [9] = (.ok 9, []) ∧ get_u32 [1, 2] = (.error .noData, [1, 2]) :=
  ⟨(byte_cursor_atomicity [] 9 0 0 0 []).1,
   (byte_cursor_atomicity [1, 2] 0 0 0 0 []).2.2.2.2.2.2.2.2.2 (by decide)⟩

/-- C3: the decode entry point can abort the process on malformed input,
contradicting the claim.  The first input is an 8-byte file holding a
`FORM` chunk with payload length 0: `read_file` calls `form_type()`
guarded only by `is_form()`, hitting the `panic!` for a container
payload shorter than 4 bytes.  The second input is an `ILBM` form whose
`BMHD` sub-chunk has a 4-byte payload: `read_bitmap_header` aborts on
its `assert!(buf.len() >= 20)`. -/
theorem decode_aborts_on_malformed_input :
    read_file [70, 79, 82, 77, 0, 0, 0, 0] ⟨true, false⟩ = .aborted ∧
    read_file [70, 79, 82, 77, 0, 0, 0, 16, 73, 76, 66, 77,
               66, 77, 72, 68, 0, 0, 0, 4, 0, 0, 0, 0] ⟨true, false⟩ = .aborted :=
  ⟨rfl, rfl⟩

/-- Transposition of a half-intensity pixel code from the `read.rs`
convention (bit 5 is the halving flag, low 5 bits the index) to the
`lib.rs` convention (bit 0 is the halving flag, the index sits above
it). -/
def hbTranspose (p : Nat) : Nat := 2 * (p &&& 31) + (p >>> 5) % 2

/-- C9 counterexample: the two half-intensity resolvers disagree on the
single-pixel row `[1]` over a two-entry map — `read.rs` treats 1 as
index 1 at full intensity, `lib.rs` treats it as index 0 halved. -/
theorem halfbrite_resolvers_differ :
    push_row_bytes_halfbrite [1] ⟨[⟨100, 100, 100⟩, ⟨40, 40, 40⟩]⟩ = .ok [40, 40, 40] ∧
    push_row_bytes_halfbrite_lib [1] ⟨[⟨100, 100, 100⟩, ⟨40, 40, 40⟩]⟩ = .ok [50, 50, 50] ∧
    push_row_bytes_halfbrite_lib [1] ⟨[⟨100, 100, 100⟩, ⟨40, 40, 40⟩]⟩ ≠
      push_row_bytes_halfbrite [1] ⟨[⟨100, 100, 100⟩, ⟨40, 40, 40⟩]⟩ := by
  refine ⟨rfl, rfl, fun h => ?_⟩
  have h' : (Except.ok [50, 50, 50] : Except IlbmError (List Nat)) = Except.ok [40, 40, 40] := h
  exact absurd (Except.ok.inj h') (by decide)

/-- The lib-convention index of a transposed pixel is the read-convention
index. -/
theorem hbTranspose_index (p : Nat) : hbTranspose p >>> 1 = p &&& 31 := by
  rw [hbTranspose, Nat.shiftRight_eq_div_pow, pow_one, nat_and_31]
  omega

/-- The lib-convention halving flag of a transposed pixel is the
read-convention flag. -/
theorem hbTranspose_flag (p : Nat) : (hbTranspose p &&& 1 ≠ 0) = (p &&& 32 ≠ 0) := by
  rw [hbTranspose, nat_and_one, Nat.shiftRight_eq_div_pow]
  rw [show (2 : Nat) ^ 5 = 32 by norm_num]
  have h := nat_and_32_ne p
  by_cases hb : p &&& 32 ≠ 0
  · have := (h.mp hb)
    simp [hb, this]
    omega
  · simp only [ne_eq, not_not] at hb
    have hz : ¬ (p / 32 % 2 = 1) := by
      intro hc
      exact (by simp [hb] : ¬ p &&& 32 ≠ 0) (h.mpr hc)
    simp [hb]
    omega

/-- C9 (amended): the two half-intensity resolvers are extensionally
equal only up to transposing the halving flag from bit 5 (the `read.rs`
pixel-code convention) to bit 0 (the `lib.rs` convention): for every row
and color map, running the `lib.rs` resolver on the transposed row gives
exactly the result (bytes or error) of the `read.rs` resolver on the
original row.  As stated — on identical inputs — the two differ; see the
counterexample. -/
theorem halfbrite_resolvers_agree_up_to_flag_bit (row : List Nat) (cmap : ColorMap) :
    push_row_bytes_halfbrite_lib (row.map hbTranspose) cmap =
      push_row_bytes_halfbrite row cmap := by
  induction row with
  | nil => rfl
  | cons p rest ih =>
    simp only [List.map_cons, push_row_bytes_halfbrite_lib, push_row_bytes_halfbrite]
    simp only [hbTranspose_index, hbTranspose_flag, ih]

/-- The triples encoded in a color-map payload, in order; a trailing
fragment of fewer than 3 bytes encodes no entry. -/
def parseTriples : List Nat → List RgbValue
  | r :: g :: b :: rest => ⟨r, g, b⟩ :: parseTriples rest
  | _ => []

/-- An entry whose three channels all have a zero low nibble. -/
def low_nibbles_zero (c : RgbValue) : Bool :=
  (c.r &&& 15 == 0) && ((c.g &&& 15 == 0) && (c.b &&& 15 == 0))

/-- The per-entry low-bits test of `read_color_map` is the negation of
`low_nibbles_zero`. -/
theorem entry_low_bits_flag (r g b : Nat) :
    (((r &&& 15) ||| ((g &&& 15) ||| (b &&& 15))) != 0) =
      ! low_nibbles_zero ⟨r, g, b⟩ := by
  rw [Bool.eq_iff_iff]
  simp [low_nibbles_zero, nat_or_eq_zero]
  tauto

/-- Characterization of the color-map reading loop: with enough input it
never fails, collects exactly the next `n` triples, and ORs into the
flag whether any of them has a nonzero low nibble. -/
theorem read_color_map_loop_spec :
    ∀ (n : Nat) (buf : List Nat) (acc : List RgbValue) (found : Bool),
      3 * n ≤ buf.length →
      read_color_map_loop n buf acc found =
        .ok (acc ++ parseTriples (buf.take (3 * n)),
             found || !(parseTriples (buf.take (3 * n))).all low_nibbles_zero) := by
  intro n
  induction n with
  | zero =>
    intro buf acc found h
    simp [read_color_map_loop, parseTriples]
  | succ n ih =>
    intro buf acc found h
    match buf with
    | [] => simp at h
    | [r] => simp at h; omega
    | [r, g] => simp at h; omega
    | r :: g :: b :: rest =>
      have hlen : 3 * n ≤ rest.length := by
        simp only [List.length_cons] at h
        omega
      have htake : (r :: g :: b :: rest).take (3 * (n + 1)) =
          r :: g :: b :: rest.take (3 * n) := by
        rw [show 3 * (n + 1) = 3 * n + 1 + 1 + 1 by ring]
        simp [List.take_succ_cons]
      rw [htake]
      simp only [read_color_map_loop, get_u8_cons]
      rw [ih _ _ _ hlen]
      simp only [parseTriples, List.all_cons, entry_low_bits_flag, List.append_assoc,
        List.singleton_append, Bool.not_and, Bool.or_assoc]

/-- Dropping the incomplete trailing fragment does not change the parsed
triples. -/
theorem parseTriples_take_div :
    ∀ (m : Nat) (data : List Nat), data.length ≤ m →
      parseTriples (data.take (3 * (data.length / 3))) = parseTriples data := by
  intro m
  induction m with
  | zero =>
    intro data h
    have hd : data = [] := List.length_eq_zero.mp (Nat.le_zero.mp h)
    subst hd
    rfl
  | succ m ih =>
    intro data h
    match data with
    | [] => rfl
    | [r] => norm_num [parseTriples]
    | [r, g] => norm_num [parseTriples]
    | r :: g :: b :: rest =>
      have hlen : rest.length ≤ m := by
        simp only [List.length_cons] at h
        omega
      have hdiv : (r :: g :: b :: rest).length / 3 = rest.length / 3 + 1 := by
        simp only [List.length_cons]
        omega
      rw [hdiv, show 3 * (rest.length / 3 + 1) = 3 * (rest.length / 3) + 1 + 1 + 1 by ring]
      simp only [List.take_succ_cons, parseTriples]
      rw [ih rest hlen]

/-- C7: Color-map legacy repair.  `read_color_map` always succeeds and
returns the parsed triples widened by `c | (c >> 4)` on every channel of
every entry exactly when the low 4 bits of every channel of every entry
are zero, and returns them exactly as read otherwise; in particular an
all-`0xF0` map becomes all-`0xFF`, while a map with a nonzero low nibble
anywhere is untouched. -/
theorem color_map_legacy_fix (data : List Nat) :
    read_color_map data =
      .ok ⟨if (parseTriples data).all low_nibbles_zero
           then (parseTriples data).map fix_color else parseTriples data⟩ ∧
    read_color_map [240, 240, 240] = .ok ⟨[⟨255, 255, 255⟩]⟩ ∧
    read_color_map [240, 240, 241] = .ok ⟨[⟨240, 240, 241⟩]⟩ := by
  refine ⟨?_, rfl, rfl⟩
  unfold read_color_map
  rw [read_color_map_loop_spec (data.length / 3) data [] false (by omega)]
  rw [parseTriples_take_div data.length data le_rfl]
  cases hall : (parseTriples data).all low_nibbles_zero <;> simp [hall]

/-- Specification of one half-intensity pixel, phrased as the claim
states it: the low 5 bits index the map (range-checked), bit 0x20 (bit
5) halves each channel by a right shift of 1. -/
def halfbrite_pixel_spec (cmap : ColorMap) (p : Nat) : Except IlbmError (List Nat) :=
  let idx := p % 32
  if h : idx < cmap.colors.length then
    let rgb := cmap.colors.get ⟨idx, h⟩
    .ok (if p.testBit 5 then [rgb.r >>> 1, rgb.g >>> 1, rgb.b >>> 1]
         else [rgb.r, rgb.g, rgb.b])
  else .error (.noMapEntry idx cmap.colors.length)

/-- Specification of a half-intensity row: pixels resolved left to
right, first failure wins. -/
def halfbrite_row_spec (cmap : ColorMap) : List Nat → Except IlbmError (List Nat)
  | [] => .ok []
  | p :: rest => do
    let t ← halfbrite_pixel_spec cmap p
    let tail ← halfbrite_row_spec cmap rest
    pure (t ++ tail)

/-- C6: Half-intensity resolution.  First conjunct: at the pixel-data
chunk, a half-intensity display mode with a plane count other than 6
fails with the not-supported condition (the HAM6 forcing cannot fire,
since it requires exactly 6 planes).  Second conjunct: the `read.rs`
half-intensity row resolver agrees pixel-for-pixel with the
specification: low 5 bits index the map (failing with `NoMapEntry`
carrying the offending index and the map size when out of range), and
bit 0x20 halves each resolved channel by a right shift of 1. -/
theorem halfbrite_resolution (st : SubState) (options : ReadOptions) (data : List Nat) :
    (st.got_header = true → st.image.display_mode.is_halfbrite = true →
      st.image.planes ≠ 6 →
      process_body data st options =
        .err (.notSupported (halfbrite_msg st.image.planes))) ∧
    (∀ (row : List Nat) (cmap : ColorMap),
      push_row_bytes_halfbrite row cmap = halfbrite_row_spec cmap row) := by
  constructor
  · intro hh hm hp
    simp [process_body, hh, hp, hm]
  · intro row cmap
    induction row with
    | nil => rfl
    | cons p rest ih =>
      simp only [push_row_bytes_halfbrite, halfbrite_row_spec, halfbrite_pixel_spec]
      rw [nat_and_31]
      by_cases hidx : p % 32 < cmap.colors.length
      · rw [if_neg (by omega), dif_pos hidx]
        rw [getD_eq_get cmap.colors (p % 32) ⟨0, 0, 0⟩ hidx]
        have hflag : (p &&& 32 ≠ 0) = (p.testBit 5 = true) := by
          rw [nat_and_32_ne]
          have ht : p.testBit 5 = decide (p / 2 ^ 5 % 2 = 1) := Nat.testBit_to_div_mod
          rw [ht]
          norm_num
        simp only [hflag, ih]
        cases halfbrite_row_spec cmap rest <;> cases hb : p.testBit 5 <;>
          simp [hb, Bind.bind, Except.bind, Pure.pure, Except.pure]
      · rw [if_pos (by omega), dif_neg hidx]
        rfl

/-- Witness for the half-intensity theorem: a state that has seen a
header, carries the half-intensity mode bit and 5 planes, fails with the
formatted not-supported condition; and the resolver agreement at a
concrete row and map. -/
theorem halfbrite_resolution_witness :
    process_body []
      ⟨{ default_image with display_mode := ⟨128⟩, planes := 5 }, none, true, false⟩
      ⟨true, false⟩ = .err (.notSupported (halfbrite_msg 5)) ∧
    push_row_bytes_halfbrite [33, 1] ⟨[⟨100, 100, 100⟩, ⟨40, 40, 40⟩]⟩ =
      halfbrite_row_spec ⟨[⟨100, 100, 100⟩, ⟨40, 40, 40⟩]⟩ [33, 1] :=
  ⟨(halfbrite_resolution
      ⟨{ default_image with display_mode := ⟨128⟩, planes := 5 }, none, true, false⟩
      ⟨true, false⟩ []).1 rfl rfl (by decide),
   (halfbrite_resolution
      ⟨{ default_image with display_mode := ⟨128⟩, planes := 5 }, none, true, false⟩
      ⟨true, false⟩ []).2 [33, 1] ⟨[⟨100, 100, 100⟩, ⟨40, 40, 40⟩]⟩⟩

/-- A sub-chunk state as it would look if a `CAMG` chunk carrying the
chroma-modify mode had been seen: `got_camg` set and the recorded mode
replaced by `DisplayMode.ham`. -/
def force_ham_state (st : SubState) : SubState :=
  { st with got_camg := true,
            image := { st.image with display_mode := DisplayMode.ham } }

/-- C8: HAM6 heuristic repair.  When the pixel-data chunk is reached
with no display-mode chunk seen, exactly 6 planes and exactly 16
color-map entries, processing it behaves exactly as if the chroma-modify
mode had been recorded (the mode is forced before pixel resolution); in
every other combination it behaves exactly as with the recorded mode
(the forcing hook disabled by marking the mode as seen), i.e. the
recorded display mode is used unmodified. -/
theorem ham6_heuristic (data : List Nat) (st : SubState) (options : ReadOptions) :
    ((st.got_camg = false ∧ st.image.planes = 6 ∧ st.image.map_size = 16) →
      process_body data st options = process_body data (force_ham_state st) options) ∧
    (¬ (st.got_camg = false ∧ st.image.planes = 6 ∧ st.image.map_size = 16) →
      process_body data st options = process_body data { st with got_camg := true } options) := by
  constructor
  · rintro ⟨hc, hp, hm⟩
    simp [process_body, force_ham_state, hc, hp, hm]
  · intro hnot
    by_cases hc : st.got_camg = true
    · simp [process_body, hc]
    · have hc' : st.got_camg = false := by
        cases h : st.got_camg
        · rfl
        · exact absurd h hc
      have : ¬ (st.image.planes = 6 ∧ st.image.map_size = 16) := by
        intro hpm
        exact hnot ⟨hc', hpm.1, hpm.2⟩
      simp [process_body, hc', this]

/-- Witness for the HAM6 heuristic: a 6-plane, 16-entry state with no
`CAMG` behaves as the forced state; a 5-plane state keeps its recorded
mode. -/
theorem ham6_heuristic_witness :
    (process_body [] ⟨{ default_image with planes := 6, map_size := 16 }, none, true, false⟩
        ⟨false, false⟩ =
      process_body []
        (force_ham_state ⟨{ default_image with planes := 6, map_size := 16 }, none, true, false⟩)
        ⟨false, false⟩) ∧
    (process_body [] ⟨{ default_image with planes := 5 }, none, true, false⟩ ⟨false, false⟩ =
      process_body []
        ⟨{ default_image with planes := 5 }, none, true, true⟩ ⟨false, false⟩) :=
  ⟨(ham6_heuristic [] ⟨{ default_image with planes := 6, map_size := 16 }, none, true, false⟩
      ⟨false, false⟩).1 ⟨rfl, rfl, rfl⟩,
   (ham6_heuristic [] ⟨{ default_image with planes := 5 }, none, true, false⟩
      ⟨false, false⟩).2 (by decide)⟩

/-- The claim's modify-component value: `v` left-shifted to fill 8 bits,
OR-ed with that shifted value right-shifted by `planes - 2`. -/
def ham_modify_component (planes v : Nat) : Nat :=
  (v <<< (8 - (planes - 2))) ||| ((v <<< (8 - (planes - 2))) >>> (planes - 2))

/-- Specification of one HAM step as the claim states it: `select` is
the top 2 bits, `v` the low `planes - 2` bits; select 0 replaces the
current color by map entry `v` (range-checked), select 1 modifies blue,
select 2 red, select 3 green, the other channels persisting. -/
def ham_step_spec (planes : Nat) (cmap : ColorMap) (color : RgbValue) (p : Nat) :
    Except IlbmError RgbValue :=
  let select := p / 2 ^ (planes - 2)
  let v := p % 2 ^ (planes - 2)
  if select = 0 then
    if h : v < cmap.colors.length then .ok (cmap.colors.get ⟨v, h⟩)
    else .error (.noMapEntry v cmap.colors.length)
  else if select = 1 then .ok { color with b := ham_modify_component planes v }
  else if select = 2 then .ok { color with r := ham_modify_component planes v }
  else .ok { color with g := ham_modify_component planes v }

/-- Specification of one HAM row: for each pixel value the current color
is updated by `ham_step_spec` and emitted. -/
def ham_row_spec (planes : Nat) (cmap : ColorMap) :
    List Nat → RgbValue → Except IlbmError (List Nat)
  | [], _ => .ok []
  | p :: rest, color => do
    let c ← ham_step_spec planes cmap color p
    let tail ← ham_row_spec planes cmap rest c
    pure (c.r :: c.g :: c.b :: tail)

/-- A list lookup with default coincides with the indexed lookup inside
the bounds. -/
theorem getD_eq_getElem {α : Type} (l : List α) (i : Nat) (d : α) (h : i < l.length) :
    l.getD i d = l[i] := by
  rw [List.getD_eq_getElem?_getD, List.getElem?_eq_getElem h]
  rfl

/-- Case split for a natural number below 4. -/
theorem lt_four_cases (q : Nat) (h : q < 4) : q = 0 ∨ q = 1 ∨ q = 2 ∨ q = 3 := by omega

/-- The HAM pixel loop agrees with the claim-level step specification
whenever the pixel values fit in `planes` bits (as assembled rows do). -/
theorem ham_loop_spec (planes : Nat) (cmap : ColorMap)
    (h2 : 2 ≤ planes) (h8 : planes ≤ 8) :
    ∀ (row : List Nat), (∀ p ∈ row, p < 2 ^ planes) → ∀ (color : RgbValue),
      push_row_bytes_ham_loop cmap.colors.length (planes - 2) ((1 <<< (planes - 2)) - 1)
        (8 - (planes - 2)) cmap row color =
      liftE (ham_row_spec planes cmap row color) := by
  intro row
  induction row with
  | nil => intro _ color; rfl
  | cons p rest ih =>
    intro hmem color
    have hp : p < 2 ^ planes := hmem p (by simp)
    have hrest : ∀ q ∈ rest, q < 2 ^ planes := fun q hq => hmem q (by simp [hq])
    have hms : p >>> (planes - 2) = p / 2 ^ (planes - 2) :=
      Nat.shiftRight_eq_div_pow p (planes - 2)
    have hmask : p &&& ((1 <<< (planes - 2)) - 1) = p % 2 ^ (planes - 2) := by
      rw [Nat.one_shiftLeft]
      exact Nat.and_pow_two_sub_one_eq_mod p (planes - 2)
    have hpow : 2 ^ planes = 2 ^ (planes - 2) * 4 := by
      rw [show planes = (planes - 2) + 2 by omega, pow_add]
      norm_num
    have hsel : p / 2 ^ (planes - 2) < 4 := by
      rw [Nat.div_lt_iff_lt_mul (by positivity)]
      omega
    have hcomp : hamComponent (p % 2 ^ (planes - 2)) (8 - (planes - 2)) =
        ham_modify_component planes (p % 2 ^ (planes - 2)) := by
      unfold hamComponent ham_modify_component
      rw [show 8 - (8 - (planes - 2)) = planes - 2 by omega]
    simp only [push_row_bytes_ham_loop, ham_row_spec, ham_step_spec, hms, hmask, hcomp]
    have hcases := lt_four_cases (p / 2 ^ (planes - 2)) hsel
    rcases hcases with hs | hs | hs | hs
    · rw [if_pos hs, if_pos hs]
      by_cases hidx : p % 2 ^ (planes - 2) < cmap.colors.length
      · rw [if_neg (not_le.mpr hidx),
          dif_pos hidx,
          getD_eq_getElem cmap.colors (p % 2 ^ (planes - 2)) ⟨0, 0, 0⟩ hidx]
        simp only [ih hrest, liftE, Bind.bind, Except.bind, Pure.pure, Except.pure]
        cases ham_row_spec planes cmap rest (cmap.colors[p % 2 ^ (planes - 2)]) <;>
          simp [liftE, Bind.bind, Except.bind, Pure.pure, Except.pure]
      · rw [if_pos (Nat.le_of_not_lt hidx),
          dif_neg hidx]
        rfl
    · rw [if_neg (show ¬ (p / 2 ^ (planes - 2) = 0) by simp [hs]),
        if_neg (show ¬ (p / 2 ^ (planes - 2) = 2) by simp [hs]),
        if_pos hs,
        if_neg (show ¬ (p / 2 ^ (planes - 2) = 0) by simp [hs]),
        if_pos hs]
      simp only [ih hrest, liftE, Bind.bind, Except.bind, Pure.pure, Except.pure]
      cases hres : ham_row_spec planes cmap rest
          { r := color.r, g := color.g,
            b := ham_modify_component planes (p % 2 ^ (planes - 2)) } <;>
        simp [hres]
    · rw [if_neg (show ¬ (p / 2 ^ (planes - 2) = 0) by simp [hs]),
        if_pos hs,
        if_neg (show ¬ (p / 2 ^ (planes - 2) = 0) by simp [hs]),
        if_neg (show ¬ (p / 2 ^ (planes - 2) = 1) by simp [hs]),
        if_pos hs]
      simp only [ih hrest, liftE, Bind.bind, Except.bind, Pure.pure, Except.pure]
      cases hres : ham_row_spec planes cmap rest
          { r := ham_modify_component planes (p % 2 ^ (planes - 2)),
            g := color.g, b := color.b } <;>
        simp [hres]
    · rw [if_neg (show ¬ (p / 2 ^ (planes - 2) = 0) by simp [hs]),
        if_neg (show ¬ (p / 2 ^ (planes - 2) = 2) by simp [hs]),
        if_neg (show ¬ (p / 2 ^ (planes - 2) = 1) by simp [hs]),
        if_pos hs,
        if_neg (show ¬ (p / 2 ^ (planes - 2) = 0) by simp [hs]),
        if_neg (show ¬ (p / 2 ^ (planes - 2) = 1) by simp [hs]),
        if_neg (show ¬ (p / 2 ^ (planes - 2) = 2) by simp [hs])]
      simp only [ih hrest, liftE, Bind.bind, Except.bind, Pure.pure, Except.pure]
      cases hres : ham_row_spec planes cmap rest
          { r := color.r, g := ham_modify_component planes (p % 2 ^ (planes - 2)),
            b := color.b } <;>
        simp [hres]

/-- C1: HAM (chroma-modify) resolution of one assembled row.  With a
nonempty map and pixel values fitting in `planes` bits, the `read.rs`
resolver computes exactly the claim's semantics: the running color
starts as map entry 0 each row; `select` (top 2 bits) 0 replaces the
color by map entry `v` (low `planes - 2` bits), failing with
`NoMapEntry` carrying `v` and the map size when out of range; selects
1/2/3 set blue/red/green to `v` shifted to fill 8 bits OR-ed with that
value shifted right by `planes - 2`, the other channels persisting; the
updated color is emitted per pixel.  In particular the resolver never
hits its `unreachable!`. -/
theorem ham_resolution (row : List Nat) (planes : Nat) (cmap : ColorMap) :
    2 ≤ planes → planes ≤ 8 → 0 < cmap.colors.length →
    (∀ p ∈ row, p < 2 ^ planes) →
    push_row_bytes_ham row planes cmap =
      liftE (ham_row_spec planes cmap row (cmap.colors.getD 0 ⟨0, 0, 0⟩)) := by
  intro h2 h8 hlen hmem
  unfold push_row_bytes_ham
  rw [if_neg (by omega)]
  exact ham_loop_spec planes cmap h2 h8 row hmem _

/-- Witness for the HAM theorem at a concrete row (one pixel of each
select class) over a 16-entry map with 6 planes. -/
theorem ham_resolution_witness :
    push_row_bytes_ham [3, 18, 34, 50] 6 ⟨(List.range 16).map (fun i => ⟨i, i, i⟩)⟩ =
      liftE (ham_row_spec 6 ⟨(List.range 16).map (fun i => ⟨i, i, i⟩)⟩ [3, 18, 34, 50]
        ((⟨(List.range 16).map (fun i => ⟨i, i, i⟩)⟩ : ColorMap).colors.getD 0 ⟨0, 0, 0⟩)) :=
  ham_resolution [3, 18, 34, 50] 6 ⟨(List.range 16).map (fun i => ⟨i, i, i⟩)⟩
    (by decide) (by decide) (by decide) (by decide)

/-- Decoding the 4-byte big-endian encoding of a value below 2^32 gives
the value back. -/
theorem fromBE_be32 (n : Nat) (h : n < 2 ^ 32) : fromBE (be32 n) = n := by
  unfold be32
  rw [fromBE_four]
  omega

/-- Reading exactly the length of a prefix returns that prefix and the
rest. -/
theorem readExact_append (l rest : List Nat) :
    readExact l.length (l ++ rest) = some (l, rest) := by
  unfold readExact
  rw [if_neg (by simp)]
  rw [List.take_left, List.drop_left]

/-- A pending padding byte is skipped before the next chunk header. -/
theorem iffChunksF_skip (fuel : Nat) (b : Nat) (s : List Nat) :
    iffChunksF (fuel + 1) true (b :: s) = iffChunksF (fuel + 1) false s := by
  simp [iffChunksF, iffNext]

/-- Length of one encoded chunk. -/
theorem encodeChunk_length (c : IffChunk) (hid : c.ck_id.length = 4) :
    (encodeChunk c).length =
      8 + c.data.length + (if c.data.length % 2 = 1 then 1 else 0) := by
  unfold encodeChunk be32
  split <;> simp [hid] <;> omega

/-- The reader inverts the encoder chunk by chunk, for any sufficient
fuel. -/
theorem iffChunksF_encode :
    ∀ (cs : List IffChunk) (fuel : Nat),
      (∀ c ∈ cs, c.ck_id.length = 4 ∧ c.data.length < 2 ^ 32) →
      (encodeChunks cs).length < fuel →
      iffChunksF fuel false (encodeChunks cs) = cs := by
  intro cs
  induction cs with
  | nil =>
    intro fuel _ hf
    cases fuel with
    | zero => exact absurd hf (by simp)
    | succ f => simp [encodeChunks, iffChunksF, iffNext, iffNextCore, readExact]
  | cons c cs' ih =>
    intro fuel hwf hf
    obtain ⟨hid, hlen⟩ := hwf c (by simp)
    have hwf' : ∀ x ∈ cs', x.ck_id.length = 4 ∧ x.data.length < 2 ^ 32 :=
      fun x hx => hwf x (by simp [hx])
    have hclen : (encodeChunk c).length =
        8 + c.data.length + (if c.data.length % 2 = 1 then 1 else 0) :=
      encodeChunk_length c hid
    have henc : encodeChunks (c :: cs') = encodeChunk c ++ encodeChunks cs' := rfl
    rw [henc] at hf ⊢
    cases fuel with
    | zero => exact absurd hf (by omega)
    | succ f =>
      have hassoc : encodeChunk c ++ encodeChunks cs' =
          c.ck_id ++ (be32 c.data.length ++ (c.data ++
            ((if c.data.length % 2 = 1 then [0] else []) ++ encodeChunks cs'))) := by
        unfold encodeChunk
        simp [List.append_assoc]
      have h1 := readExact_append c.ck_id (be32 c.data.length ++ (c.data ++
        ((if c.data.length % 2 = 1 then [0] else []) ++ encodeChunks cs')))
      rw [hid] at h1
      have h2 := readExact_append (be32 c.data.length) (c.data ++
        ((if c.data.length % 2 = 1 then [0] else []) ++ encodeChunks cs'))
      rw [show (be32 c.data.length).length = 4 from rfl] at h2
      have h3 := readExact_append c.data
        ((if c.data.length % 2 = 1 then [0] else []) ++ encodeChunks cs')
      have hcore : iffNextCore (encodeChunk c ++ encodeChunks cs') =
          some (⟨c.ck_id, c.data⟩, (c.data.length &&& 1 != 0),
            (if c.data.length % 2 = 1 then [0] else []) ++ encodeChunks cs') := by
        rw [hassoc]
        simp only [iffNextCore, h1, h2, h3, fromBE_be32 c.data.length hlen]
      have hstep : iffChunksF (f + 1) false (encodeChunk c ++ encodeChunks cs') =
          ⟨c.ck_id, c.data⟩ :: iffChunksF f (c.data.length &&& 1 != 0)
            ((if c.data.length % 2 = 1 then [0] else []) ++ encodeChunks cs') := by
        simp only [iffChunksF, iffNext, hcore]
        simp
      rw [hstep]
      by_cases hodd : c.data.length % 2 = 1
      · have hskip : (c.data.length &&& 1 != 0) = true := by
          rw [nat_and_one, hodd]
          rfl
        rw [hskip, if_pos hodd]
        have hf' : (encodeChunks cs').length + 1 < f := by
          rw [List.length_append, hclen, if_pos hodd] at hf
          omega
        cases f with
        | zero => omega
        | succ g =>
          rw [show ([0] ++ encodeChunks cs' : List Nat) = 0 :: encodeChunks cs' from rfl]
          rw [iffChunksF_skip g 0 (encodeChunks cs')]
          rw [ih (g + 1) hwf' (by omega)]
      · have hskip : (c.data.length &&& 1 != 0) = false := by
          rw [nat_and_one]
          have : c.data.length % 2 = 0 := by omega
          rw [this]
          rfl
        rw [hskip, if_neg hodd]
        have hf' : (encodeChunks cs').length < f := by
          rw [List.length_append, hclen, if_neg hodd] at hf
          omega
        rw [show (([] : List Nat) ++ encodeChunks cs') = encodeChunks cs' from rfl]
        rw [ih f hwf' hf']

/-- C5: Round-trip of the chunked container reader.  Iterating the
reader over any well-formed encoding of a chunk sequence — 4-byte tag,
4-byte big-endian length, payload, one padding byte after each
odd-length payload — yields exactly the encoded (tag, payload) pairs in
order; and for every `FORM` chunk with payload length at least 4 the
reported sub-type is the first 4 payload bytes. -/
theorem iff_reader_roundtrip (cs : List IffChunk) :
    ((∀ c ∈ cs, c.ck_id.length = 4 ∧ c.data.length < 2 ^ 32) →
      iffChunks (encodeChunks cs) = cs) ∧
    (∀ c : IffChunk, c.is_form → 4 ≤ c.data.length →
      c.form_type = some (c.data.take 4)) := by
  constructor
  · intro hwf
    exact iffChunksF_encode cs ((encodeChunks cs).length + 1) hwf (by omega)
  · intro c hform hlen
    unfold IffChunk.form_type
    rw [if_pos ⟨hform, hlen⟩]

/-- Witness for the round-trip theorem: a two-chunk stream whose first
payload has odd length (exercising the padding byte). -/
theorem iff_reader_roundtrip_witness :
    iffChunks (encodeChunks [⟨[84, 69, 83, 84], [1, 2, 3]⟩, ⟨[66, 79, 68, 89], [7, 8]⟩]) =
      [⟨[84, 69, 83, 84], [1, 2, 3]⟩, ⟨[66, 79, 68, 89], [7, 8]⟩] :=
  (iff_reader_roundtrip [⟨[84, 69, 83, 84], [1, 2, 3]⟩, ⟨[66, 79, 68, 89], [7, 8]⟩]).1
    (by decide)

/-- Relational specification of the run-length contract as the claim
states it, over raw control bytes: `UnpackRel input target out rem`
holds when the control loop started on `input` can produce exactly
`target` output bytes `out`, leaving `rem` unconsumed.  A byte `n ≤ 127`
is a non-negative signed control copying the next `n + 1` bytes
literally; a byte `129 ≤ n ≤ 255` is a negative signed control `s`
(with `n = 256 + s`) replicating the next byte `-s + 1 = 257 - n` times;
byte 128 is the signed -128, a no-op.  No run may overshoot the
remaining target. -/
inductive UnpackRel : List Nat → Nat → List Nat → List Nat → Prop where
  | done (rest : List Nat) : UnpackRel rest 0 [] rest
  | lit (n : Nat) (bytes rest out final : List Nat) (target : Nat) :
      n ≤ 127 → bytes.length = n + 1 → n + 1 ≤ target →
      UnpackRel rest (target - (n + 1)) out final →
      UnpackRel (n :: (bytes ++ rest)) target (bytes ++ out) final
  | repl (n b : Nat) (rest out final : List Nat) (target : Nat) :
      129 ≤ n → n ≤ 255 → 257 - n ≤ target →
      UnpackRel rest (target - (257 - n)) out final →
      UnpackRel (n :: b :: rest) target (List.replicate (257 - n) b ++ out) final
  | nop (rest out final : List Nat) (target : Nat) :
      0 < target →
      UnpackRel rest target out final →
      UnpackRel (128 :: rest) target out final

/-- A derivation produces exactly `target` output bytes. -/
theorem UnpackRel.out_length {input : List Nat} {target : Nat} {out rem : List Nat}
    (h : UnpackRel input target out rem) : out.length = target := by
  induction h with
  | done rest => rfl
  | lit n bytes rest out final target hn hblen hle hsub ih =>
    simp only [List.length_append, ih, hblen]
    omega
  | repl n b rest out final target h129 h255 hle hsub ih =>
    simp only [List.length_append, ih, List.length_replicate]
    omega
  | nop rest out final target hpos hsub ih => exact ih

/-- `takeExact` only ever fails with `NoData`. -/
theorem takeExact_err (k : Nat) (l : List Nat) (e : IlbmError)
    (h : takeExact k l = .error e) : e = .noData := by
  unfold takeExact at h
  split at h
  · rw [Except.error.injEq] at h
    exact h.symm
  · simp at h

/-- `takeExact` succeeds exactly on a sufficiently long list, splitting
it at `k`. -/
theorem takeExact_ok (k : Nat) (l bs l' : List Nat)
    (h : takeExact k l = .ok (bs, l')) :
    k ≤ l.length ∧ bs = l.take k ∧ l' = l.drop k := by
  unfold takeExact at h
  split at h
  · simp at h
  · rw [Except.ok.injEq, Prod.mk.injEq] at h
    exact ⟨by omega, h.1.symm, h.2.symm⟩

/-- Unfolding of the loop once the target is reached: the final
length check of `unpacker`. -/
theorem unpackerLoop_done (target fuel : Nat) (data acc : List Nat)
    (hacc : target ≤ acc.length) :
    unpackerLoop target fuel data acc =
      if acc.length = target then .ok (data, acc)
      else .error (.invalidData (unpack_overshoot_msg target acc.length)) := by
  cases fuel <;> simp only [unpackerLoop] <;> rw [if_pos hacc]

/-- Unfolding of the loop on exhausted fuel below target. -/
theorem unpackerLoop_zero (target : Nat) (data acc : List Nat)
    (hacc : ¬ target ≤ acc.length) :
    unpackerLoop target 0 data acc = .error .noData := by
  simp only [unpackerLoop]
  rw [if_neg hacc]

/-- Unfolding of the loop on empty input below target. -/
theorem unpackerLoop_succ_nil (target g : Nat) (acc : List Nat)
    (hacc : ¬ target ≤ acc.length) :
    unpackerLoop target (g + 1) [] acc = .error .noData := by
  simp only [unpackerLoop]
  rw [if_neg hacc]

/-- Unfolding of the loop on a control byte below target. -/
theorem unpackerLoop_succ_cons (target g : Nat) (n : Nat) (rest acc : List Nat)
    (hacc : ¬ target ≤ acc.length) :
    unpackerLoop target (g + 1) (n :: rest) acc =
      if n ≤ 127 then
        match takeExact (n + 1) rest with
        | .error e => .error e
        | .ok (bs, rest') => unpackerLoop target g rest' (acc ++ bs)
      else if n = 128 then
        unpackerLoop target g rest acc
      else
        match rest with
        | [] => .error .noData
        | b :: rest' => unpackerLoop target g rest' (acc ++ List.replicate (257 - n) b) := by
  simp only [unpackerLoop]
  rw [if_neg hacc]

/-- The loop only ever fails with `NoData` or the formatted overshoot
`InvalidData` message. -/
theorem unpackerLoop_err :
    ∀ (fuel target : Nat) (data acc : List Nat) (e : IlbmError),
      unpackerLoop target fuel data acc = .error e →
      e = .noData ∨ ∃ a b, e = .invalidData (unpack_overshoot_msg a b) := by
  intro fuel
  induction fuel with
  | zero =>
    intro target data acc e h
    by_cases hacc : target ≤ acc.length
    · rw [unpackerLoop_done target 0 data acc hacc] at h
      split at h
      · simp at h
      · rw [Except.error.injEq] at h
        exact Or.inr ⟨target, acc.length, h.symm⟩
    · rw [unpackerLoop_zero target data acc hacc] at h
      rw [Except.error.injEq] at h
      exact Or.inl h.symm
  | succ g ih =>
    intro target data acc e h
    by_cases hacc : target ≤ acc.length
    · rw [unpackerLoop_done target (g + 1) data acc hacc] at h
      split at h
      · simp at h
      · rw [Except.error.injEq] at h
        exact Or.inr ⟨target, acc.length, h.symm⟩
    · cases data with
      | nil =>
        rw [unpackerLoop_succ_nil target g acc hacc] at h
        rw [Except.error.injEq] at h
        exact Or.inl h.symm
      | cons n rest =>
        rw [unpackerLoop_succ_cons target g n rest acc hacc] at h
        by_cases hn : n ≤ 127
        · rw [if_pos hn] at h
          cases htk : takeExact (n + 1) rest with
          | error e' =>
            rw [htk] at h
            have h' : (Except.error e' : Except IlbmError (List Nat × List Nat)) =
                .error e := h
            rw [Except.error.injEq] at h'
            exact Or.inl (h'.symm.trans (takeExact_err (n + 1) rest e' htk))
          | ok pr =>
            rw [htk] at h
            exact ih target pr.2 (acc ++ pr.1) e h
        · rw [if_neg hn] at h
          by_cases h128 : n = 128
          · rw [if_pos h128] at h
            exact ih target rest acc e h
          · rw [if_neg h128] at h
            cases rest with
            | nil =>
              have h' : (Except.error .noData : Except IlbmError (List Nat × List Nat)) =
                  .error e := h
              rw [Except.error.injEq] at h'
              exact Or.inl h'.symm
            | cons b rest' =>
              exact ih target rest' (acc ++ List.replicate (257 - n) b) e h

/-- On success the loop has produced exactly `target` bytes. -/
theorem unpackerLoop_length :
    ∀ (fuel target : Nat) (data acc rem res : List Nat),
      unpackerLoop target fuel data acc = .ok (rem, res) → res.length = target := by
  intro fuel
  induction fuel with
  | zero =>
    intro target data acc rem res h
    by_cases hacc : target ≤ acc.length
    · rw [unpackerLoop_done target 0 data acc hacc] at h
      split at h
      · rw [Except.ok.injEq, Prod.mk.injEq] at h
        rw [← h.2]
        omega
      · simp at h
    · rw [unpackerLoop_zero target data acc hacc] at h
      simp at h
  | succ g ih =>
    intro target data acc rem res h
    by_cases hacc : target ≤ acc.length
    · rw [unpackerLoop_done target (g + 1) data acc hacc] at h
      split at h
      · rw [Except.ok.injEq, Prod.mk.injEq] at h
        rw [← h.2]
        omega
      · simp at h
    · cases data with
      | nil =>
        rw [unpackerLoop_succ_nil target g acc hacc] at h
        simp at h
      | cons n rest =>
        rw [unpackerLoop_succ_cons target g n rest acc hacc] at h
        by_cases hn : n ≤ 127
        · rw [if_pos hn] at h
          cases htk : takeExact (n + 1) rest with
          | error e' =>
            rw [htk] at h
            simp at h
          | ok pr =>
            rw [htk] at h
            exact ih target pr.2 (acc ++ pr.1) rem res h
        · rw [if_neg hn] at h
          by_cases h128 : n = 128
          · rw [if_pos h128] at h
            exact ih target rest acc rem res h
          · rw [if_neg h128] at h
            cases rest with
            | nil =>
              have h' : (Except.error .noData : Except IlbmError (List Nat × List Nat)) =
                  .ok (rem, res) := h
              simp at h'
            | cons b rest' =>
              exact ih target rest' (acc ++ List.replicate (257 - n) b) rem res h

/-- Soundness of the loop: every successful run is described by a
derivation of the relational specification. -/
theorem unpackerLoop_sound :
    ∀ (fuel target : Nat) (data acc rem res : List Nat),
      data.length < fuel → (∀ x ∈ data, x < 256) →
      unpackerLoop target fuel data acc = .ok (rem, res) →
      acc.length ≤ target ∧
        ∃ out, res = acc ++ out ∧ UnpackRel data (target - acc.length) out rem := by
  intro fuel
  induction fuel with
  | zero =>
    intro target data acc rem res hf _ _
    exact absurd hf (Nat.not_lt_zero _)
  | succ g ih =>
    intro target data acc rem res hf hb hok
    by_cases hend : target ≤ acc.length
    · rw [unpackerLoop_done target (g + 1) data acc hend] at hok
      by_cases heq : acc.length = target
      · rw [if_pos heq] at hok
        rw [Except.ok.injEq, Prod.mk.injEq] at hok
        obtain ⟨hrem, hres⟩ := hok
        subst hrem
        subst hres
        refine ⟨by omega, [], by simp, ?_⟩
        rw [show target - acc.length = 0 by omega]
        exact UnpackRel.done data
      · rw [if_neg heq] at hok
        simp at hok
    · cases data with
      | nil =>
        rw [unpackerLoop_succ_nil target g acc hend] at hok
        simp at hok
      | cons n rest =>
        rw [unpackerLoop_succ_cons target g n rest acc hend] at hok
        have hn256 : n < 256 := hb n (by simp)
        have hbrest : ∀ x ∈ rest, x < 256 := fun x hx => hb x (by simp [hx])
        by_cases hn : n ≤ 127
        · rw [if_pos hn] at hok
          cases htk : takeExact (n + 1) rest with
          | error e' =>
            rw [htk] at hok
            simp at hok
          | ok pr =>
            obtain ⟨bs, rest'⟩ := pr
            rw [htk] at hok
            obtain ⟨hklen, hbs, hrest'⟩ := takeExact_ok (n + 1) rest bs rest' htk
            have hbslen : bs.length = n + 1 := by
              rw [hbs, List.length_take]
              omega
            have hflen : rest'.length < g := by
              rw [hrest', List.length_drop]
              simp only [List.length_cons] at hf
              omega
            have hbrest' : ∀ x ∈ rest', x < 256 := by
              intro x hx
              rw [hrest'] at hx
              exact hbrest x (List.drop_subset _ _ hx)
            obtain ⟨hacc2, out', hres, hrel⟩ :=
              ih target rest' (acc ++ bs) rem res hflen hbrest' hok
            rw [List.length_append, hbslen] at hacc2
            rw [List.length_append, hbslen] at hrel
            refine ⟨by omega, bs ++ out', by rw [hres, List.append_assoc], ?_⟩
            have hsplit : rest = bs ++ rest' := by
              rw [hbs, hrest']
              exact (List.take_append_drop (n + 1) rest).symm
            rw [hsplit]
            refine UnpackRel.lit n bs rest' out' rem (target - acc.length) hn hbslen
              (by omega) ?_
            rw [show target - acc.length - (n + 1) = target - (acc.length + (n + 1)) by omega]
            exact hrel
        · rw [if_neg hn] at hok
          by_cases h128 : n = 128
          · rw [if_pos h128] at hok
            have hflen : rest.length < g := by
              simp only [List.length_cons] at hf
              omega
            obtain ⟨hacc2, out', hres, hrel⟩ :=
              ih target rest acc rem res hflen hbrest hok
            subst h128
            exact ⟨hacc2, out', hres,
              UnpackRel.nop rest out' rem (target - acc.length) (by omega) hrel⟩
          · rw [if_neg h128] at hok
            cases rest with
            | nil =>
              have h' : (Except.error .noData : Except IlbmError (List Nat × List Nat)) =
                  .ok (rem, res) := hok
              simp at h'
            | cons b rest' =>
              have hflen : rest'.length < g := by
                simp only [List.length_cons] at hf
                omega
              have hbrest' : ∀ x ∈ rest', x < 256 :=
                fun x hx => hbrest x (by simp [hx])
              obtain ⟨hacc2, out', hres, hrel⟩ :=
                ih target rest' (acc ++ List.replicate (257 - n) b) rem res hflen hbrest' hok
              rw [List.length_append, List.length_replicate] at hacc2
              rw [List.length_append, List.length_replicate] at hrel
              refine ⟨by omega, List.replicate (257 - n) b ++ out',
                by rw [hres, List.append_assoc], ?_⟩
              refine UnpackRel.repl n b rest' out' rem (target - acc.length)
                (by omega) (by omega) (by omega) ?_
              rw [show target - acc.length - (257 - n) = target - (acc.length + (257 - n)) by omega]
              exact hrel

/-- Completeness of the loop: every derivation of the relational
specification is reproduced by the loop given sufficient fuel. -/
theorem unpackerLoop_complete :
    ∀ {data : List Nat} {target : Nat} {out rem : List Nat},
      UnpackRel data target out rem →
      ∀ (fuel : Nat) (acc : List Nat), data.length < fuel →
        unpackerLoop (acc.length + target) fuel data acc = .ok (rem, acc ++ out) := by
  intro data target out rem hrel
  induction hrel with
  | done rest =>
    intro fuel acc hf
    rw [unpackerLoop_done (acc.length + 0) fuel rest acc (by omega)]
    rw [if_pos (by omega)]
    simp
  | lit n bytes rest out final target hn hblen hle hsub ih =>
    intro fuel acc hf
    cases fuel with
    | zero => exact absurd hf (Nat.not_lt_zero _)
    | succ g =>
      rw [unpackerLoop_succ_cons (acc.length + target) g n (bytes ++ rest) acc (by omega)]
      rw [if_pos hn]
      have htk : takeExact (n + 1) (bytes ++ rest) = .ok (bytes, rest) := by
        unfold takeExact
        rw [if_neg (by rw [List.length_append]; omega)]
        rw [← hblen, List.take_left, List.drop_left]
      rw [htk]
      have hflen : rest.length < g := by
        simp only [List.length_cons, List.length_append] at hf
        omega
      have hrec := ih g (acc ++ bytes) hflen
      rw [List.length_append, hblen] at hrec
      rw [show acc.length + (n + 1) + (target - (n + 1)) = acc.length + target by omega] at hrec
      rw [List.append_assoc] at hrec
      exact hrec
  | repl n b rest out final target h129 h255 hle hsub ih =>
    intro fuel acc hf
    cases fuel with
    | zero => exact absurd hf (Nat.not_lt_zero _)
    | succ g =>
      rw [unpackerLoop_succ_cons (acc.length + target) g n (b :: rest) acc (by omega)]
      rw [if_neg (by omega), if_neg (by omega)]
      have hflen : rest.length < g := by
        simp only [List.length_cons] at hf
        omega
      have hrec := ih g (acc ++ List.replicate (257 - n) b) hflen
      rw [List.length_append, List.length_replicate] at hrec
      rw [show acc.length + (257 - n) + (target - (257 - n)) = acc.length + target by omega] at hrec
      rw [List.append_assoc] at hrec
      exact hrec
  | nop rest out final target hpos hsub ih =>
    intro fuel acc hf
    cases fuel with
    | zero => exact absurd hf (Nat.not_lt_zero _)
    | succ g =>
      rw [unpackerLoop_succ_cons (acc.length + target) g 128 rest acc (by omega)]
      rw [if_neg (by omega), if_pos rfl]
      exact ih g acc (by simp only [List.length_cons] at hf; omega)

/-- C2: the run-length unpacker contract.  Over byte inputs, success is
exactly membership in the claim's relational specification (control byte
0..127 copies the next n+1 bytes, 129..255 — the negative signed values
-1..-127 — replicates the next byte 257-n = (-n)+1 times, 128 = -128
contributes nothing, runs never overshoot, and the unconsumed remainder
is returned); a successful output has exactly the target length; every
failure is the insufficient-data condition or the invalid-data overshoot
condition; and the claim's concrete example holds, with empty
remainder. -/
theorem unpacker_contract :
    (∀ (input : List Nat) (N : Nat) (rem out : List Nat),
        (∀ x ∈ input, x < 256) →
        (unpacker input N = .ok (rem, out) ↔ UnpackRel input N out rem)) ∧
    (∀ (input : List Nat) (N : Nat) (rem out : List Nat),
        unpacker input N = .ok (rem, out) → out.length = N) ∧
    (∀ (input : List Nat) (N : Nat) (e : IlbmError),
        unpacker input N = .error e →
        e = .noData ∨ ∃ a b, e = .invalidData (unpack_overshoot_msg a b)) ∧
    unpacker [253, 10] 4 = .ok ([], [10, 10, 10, 10]) := by
  refine ⟨?_, ?_, ?_, rfl⟩
  · intro input N rem out hb
    constructor
    · intro hok
      obtain ⟨-, out', hres, hrel⟩ :=
        unpackerLoop_sound (input.length + 1) N input [] rem out (by omega) hb hok
      simp only [List.nil_append] at hres
      simp only [List.length_nil, Nat.sub_zero] at hrel
      rw [hres]
      exact hrel
    · intro hrel
      have hrun := unpackerLoop_complete hrel (input.length + 1) [] (by omega)
      simp only [List.length_nil, Nat.zero_add, List.nil_append] at hrun
      exact hrun
  · intro input N rem out hok
    exact unpackerLoop_length (input.length + 1) N input [] rem out hok
  · intro input N e h
    exact unpackerLoop_err (input.length + 1) N input [] e h

/-- Witness for the unpacker contract at the claim's concrete example:
the replicate-4 derivation and the exact output length. -/
theorem unpacker_contract_witness :
    UnpackRel [253, 10] 4 [10, 10, 10, 10] [] ∧
      ([10, 10, 10, 10] : List Nat).length = 4 :=
  ⟨(unpacker_contract.1 [253, 10] 4 [] [10, 10, 10, 10] (by decide)).mp rfl,
   unpacker_contract.2.1 [253, 10] 4 [] [10, 10, 10, 10] rfl⟩

/-- C4 counterexample: a decompression failure does NOT surface
unchanged.  On the body payload `[2, 0, 0, 0]` with target row stride 2,
`unpacker` fails with the invalid-data overshoot condition, but decoding
a complete ILBM file carrying that body (width 16, height 1, one
compressed plane, one color-map entry) returns the
insufficient-data condition `NoData` instead: `RowIter::next` turns any
unpacker error into end-of-iteration and `read_body_with_cmap` reports a
missing row as `NoData`. -/
theorem decompressor_error_coarsened :
    unpacker [2, 0, 0, 0] 2 = .error (.invalidData (unpack_overshoot_msg 2 3)) ∧
    read_file [70, 79, 82, 77, 0, 0, 0, 56, 73, 76, 66, 77,
               66, 77, 72, 68, 0, 0, 0, 20, 0, 16, 0, 1, 0, 0, 0, 0, 1, 0,
               1, 0, 0, 0, 1, 1, 0, 16, 0, 1,
               67, 77, 65, 80, 0, 0, 0, 3, 17, 34, 51, 0,
               66, 79, 68, 89, 0, 0, 0, 4, 2, 0, 0, 0] ⟨true, false⟩ =
      .err .noData :=
  ⟨rfl, rfl⟩

/-- C4 (amended): failures of the run-length decompressor during row
assembly are not propagated unchanged; instead, whatever the
decompressor's error is (including invalid-data), the first failing row
fetch surfaces from `read_body_with_cmap` as the insufficient-data
condition `NoData`, which the orchestrator then returns as is. -/
theorem decompressor_error_becomes_no_data (data : List Nat) (mode : DisplayMode)
    (cmap : ColorMap) (image : IlbmImage) (e : IlbmError) :
    image.compression = true → 0 < image.size.height → 0 < image.planes →
    image.planes ≤ 8 →
    unpacker data ((image.size.width + 15) / 16 * 2) = .error e →
    read_body_with_cmap data mode cmap image = .err .noData := by
  intro hcomp hh hp h8 hunp
  unfold read_body_with_cmap
  rw [if_neg (by omega)]
  obtain ⟨h, hheq⟩ : ∃ h, image.size.height = h + 1 := ⟨image.size.height - 1, by omega⟩
  obtain ⟨k, hkeq⟩ : ∃ k, image.planes = k + 1 := ⟨image.planes - 1, by omega⟩
  rw [hheq, hkeq]
  simp [body_loop_cmap, read_planes, rowIterNext, hcomp, hunp]

/-- Witness for the amended statement: the concrete failing body of the
counterexample run through `read_body_with_cmap` directly. -/
theorem decompressor_error_becomes_no_data_witness :
    read_body_with_cmap [2, 0, 0, 0] ⟨0⟩ ⟨[⟨17, 34, 51⟩]⟩
      { default_image with size := ⟨16, 1⟩, planes := 1, compression := true } =
      .err .noData :=
  decompressor_error_becomes_no_data [2, 0, 0, 0] ⟨0⟩ ⟨[⟨17, 34, 51⟩]⟩
    { default_image with size := ⟨16, 1⟩, planes := 1, compression := true }
    (.invalidData (unpack_overshoot_msg 2 3)) rfl (by decide) (by decide) (by decide) rfl
